import Mathlib

/-!
Shallow embedding of `src/enigma.py` (classes `Plugboard` and `Enigma`).

Python dictionaries `Dict[str, str]` holding single-character keys and values
are modelled as association lists `List (Char × Char)` whose keys are distinct
(a theorem about a value that plays the role of a Python `dict` carries a
`Nodup` hypothesis on its keys where that matters; values produced by
`dict(zip(...))` are built with `pyDictOfPairs`, which reproduces Python's
"last value wins, first position kept" construction).  `dict.get` returning
`None` on a missing key is modelled with `Option`.  The exceptions raised by
the source (`ValueError`, `TypeError`) are modelled by the type `PyErr`;
a fallible statement returns the (possibly updated) state paired with
`Option PyErr`, `none` meaning normal completion.
-/

/-- The constant `string.ascii_lowercase` from the Python standard library. -/
def ascii_lowercase : List Char := "abcdefghijklmnopqrstuvwxyz".toList

/-- The exceptions raised by `enigma.py`. -/
inductive PyErr where
  | valueError (msg : String)
  | typeError (msg : String)
deriving DecidableEq, Repr

/-- The keys view of a dict, `value.keys()`. -/
def dictKeys (d : List (Char × Char)) : List Char := d.map Prod.fst

/-- The values view of a dict, `value.values()`. -/
def dictValues (d : List (Char × Char)) : List Char := d.map Prod.snd

/-- Lookup `d.get(k)`: the value stored under the first (hence, in a dict, only)
occurrence of the key `k`, or `None` when `k` is not a key. -/
def dictGet (d : List (Char × Char)) (k : Char) : Option Char :=
  (d.find? (fun p => p.1 == k)).map Prod.snd

/-- One step of Python dict construction: `d[k] = v` (overwrite in place if
the key is present, else append at the end). -/
def pyDictInsert (d : List (Char × Char)) (k v : Char) : List (Char × Char) :=
  if d.any (fun p => p.1 == k) then
    d.map (fun p => if p.1 == k then (p.1, v) else p)
  else
    d ++ [(k, v)]

/-- Constructor `dict(pairs)`: builds a Python dict from a sequence of key/value pairs. -/
def pyDictOfPairs (l : List (Char × Char)) : List (Char × Char) :=
  l.foldl (fun d p => pyDictInsert d p.1 p.2) []

/-- Python `set(a) == set(b)` for two character sequences (set equality is
extensional membership equality). -/
def setEqb (a b : List Char) : Bool :=
  a.all (fun x => b.contains x) && b.all (fun x => a.contains x)

/-- The state of a `Plugboard` object: its `_front` and `_back` dictionaries.
(`__init__` starts them at `None` and immediately runs the `front` setter; the
placeholder `⟨[], []⟩` stands for that never-observable pre-initialised state,
since every path to a usable object goes through a successful setter call.) -/
structure PlugState where
  front : List (Char × Char)
  back : List (Char × Char)
deriving DecidableEq, Repr

/-- The class attribute `Plugboard._std_front`. -/
def std_front : List Char := "zphnmswciytqedoblrfkuvgxja".toList

/-- The argument accepted by the `front` setter: `None`, a `str`, a `dict`,
or a value of any other type. -/
inductive PBValue where
  | none
  | str (s : List Char)
  | dict (d : List (Char × Char))
  | other
deriving DecidableEq, Repr

/-- The tail of the `front` setter, reached once `value` is a dict `d`:
the 26-keys check, the two set-coverage checks, and on success the
assignments `self._front = value; self._back = dict(zip(value.values(),
value.keys()))`.  Returns the state after the call together with the raised
exception, if any. -/
def checkDict (st : PlugState) (d : List (Char × Char)) : PlugState × Option PyErr :=
  if (dictKeys d).length ≠ ascii_lowercase.length then
    (st, some (.valueError "Expected 26 keys"))
  else if !(setEqb (dictKeys d) ascii_lowercase) || !(setEqb (dictValues d) ascii_lowercase) then
    (st, some (.valueError "Invalid characters found, expected to be a lowercase ascii"))
  else
    (⟨d, pyDictOfPairs ((dictValues d).zip (dictKeys d))⟩, Option.none)

/-- The `front` setter of `Plugboard` (`@front.setter`): default substitution,
the string branch (length check, then `dict(zip(ascii_lowercase, value))`),
the dict branch, and the trailing `TypeError` for any other type. -/
def front_set (st : PlugState) (v : PBValue) : PlugState × Option PyErr :=
  match v with
  | .none =>
    -- `value = self._std_front`, a 26-character string
    if std_front.length ≠ ascii_lowercase.length then
      (st, some (.valueError "Expected 26 characters"))
    else
      checkDict st (pyDictOfPairs (ascii_lowercase.zip std_front))
  | .str s =>
    if s.length ≠ ascii_lowercase.length then
      (st, some (.valueError "Expected 26 characters"))
    else
      checkDict st (pyDictOfPairs (ascii_lowercase.zip s))
  | .dict d => checkDict st d
  | .other => (st, some (.typeError "Expected dictionary or string"))

/-- The method `Plugboard.__call__(value, reverse)`: `reverse` defaults to `False` (and a
passed `None` is replaced by `False`), then
`self.back.get(value) if reverse else self.front.get(value)`.  The input
symbol is an `Option Char` because the result of a previous layer — which is
`None` on a missing key — can be fed back in, and `d.get(None)` is `None`. -/
def plug_call (st : PlugState) (value : Option Char) (reverse : Option Bool) : Option Char :=
  let r := reverse.getD false
  match value with
  | Option.none => Option.none
  | some c => if r then dictGet st.back c else dictGet st.front c

/-- The object `Plugboard()` built with the default argument: the state produced by running the
`front` setter on `None` from the pre-initialised state. -/
def std_plugboard : PlugState := (front_set ⟨[], []⟩ PBValue.none).1

/-- The state of an `Enigma` object: its `_layers` (every concrete layer in
the source is a `Plugboard`) and `_order`. -/
structure EnigmaM where
  layers : List PlugState
  order : List (Nat × Bool)
deriving DecidableEq, Repr

/-- The class attribute `Enigma._std_layers = (Plugboard(),)`. -/
def std_layers : List PlugState := [std_plugboard]

/-- The class attribute `Enigma._std_order = ((0, True),)`. -/
def std_order : List (Nat × Bool) := [(0, true)]

/-- The constructor `Enigma.__init__`: `self._layers = layers or self._std_layers` (Python
truthiness: both `None` and an empty tuple select the default), and likewise
for `order`. -/
def enigma_init (layers : Option (List PlugState)) (order : Option (List (Nat × Bool))) : EnigmaM :=
  { layers :=
      match layers with
      | some l => if l.isEmpty then std_layers else l
      | Option.none => std_layers
    order :=
      match order with
      | some o => if o.isEmpty then std_order else o
      | Option.none => std_order }

/-- The method `Enigma.__call__(value)`: folds the input through `self.layers[i](value,
r)` for each `(i, r)` in `self.order`.  The outer `Option` is the crash
channel: `none` models the `IndexError` of an out-of-range `self.layers[i]`
(never reached under any configuration the theorems below consider); the
inner `Option Char` is the value channel, `Option.none` being Python `None`. -/
def enigma_call (m : EnigmaM) (value : Option Char) : Option (Option Char) :=
  m.order.foldlM
    (fun v ir => (m.layers.get? ir.1).map (fun p => plug_call p v (some ir.2)))
    value

/-- The well-formedness the `front` setter establishes for a stored dict:
distinct keys and values, each covering exactly the lowercase alphabet. -/
def goodDict (d : List (Char × Char)) : Prop :=
  (dictKeys d).Nodup ∧ (dictValues d).Nodup ∧
  (∀ x, x ∈ dictKeys d ↔ x ∈ ascii_lowercase) ∧
  (∀ x, x ∈ dictValues d ↔ x ∈ ascii_lowercase)

/-- A full-alphabet mapping that is a bijection but not an involution:
`a → b → c → a`, every other letter fixed. -/
def cyc3 : List (Char × Char) :=
  [('a', 'b'), ('b', 'c'), ('c', 'a')] ++ (ascii_lowercase.drop 3).map (fun c => (c, c))

/-- The machine `Enigma(layers=(Plugboard(cyc3),), order=((0, False),))`: a machine built
from two identical configuration pieces (same layers, same order) whenever it
is constructed twice. -/
def cyc3_machine : EnigmaM :=
  ⟨[(front_set ⟨[], []⟩ (PBValue.dict cyc3)).1], [(0, false)]⟩

/-! ### Dictionary lemmas -/

theorem ascii_lowercase_nodup : ascii_lowercase.Nodup := by decide

theorem ascii_lowercase_length : ascii_lowercase.length = 26 := by decide

/-- A successful lookup comes from a pair stored in the dict. -/
theorem mem_of_dictGet {d : List (Char × Char)} {k v : Char}
    (h : dictGet d k = some v) : (k, v) ∈ d := by
  unfold dictGet at h
  cases hf : d.find? (fun p => p.1 == k) with
  | none => simp [hf] at h
  | some p =>
    have hm := List.mem_of_find?_eq_some hf
    have hp := List.find?_some hf
    obtain ⟨p1, p2⟩ := p
    simp [hf] at h
    simp at hp
    subst hp h
    exact hm

/-- In a dict with distinct keys, a stored pair is found by lookup. -/
theorem dictGet_of_mem {d : List (Char × Char)} {k v : Char}
    (hnd : (dictKeys d).Nodup) (hmem : (k, v) ∈ d) : dictGet d k = some v := by
  induction d with
  | nil => simp at hmem
  | cons p t ih =>
    obtain ⟨p1, p2⟩ := p
    rw [dictKeys, List.map_cons, List.nodup_cons] at hnd
    rcases List.mem_cons.mp hmem with hh | ht
    · rw [Prod.mk.injEq] at hh
      obtain ⟨h1, h2⟩ := hh
      subst h1
      subst h2
      have hpos : List.find? (fun p => p.1 == k) ((k, v) :: t) = some (k, v) :=
        List.find?_cons_of_pos _ (by simp)
      simp [dictGet, hpos]
    · have hne : p1 ≠ k := by
        intro he
        subst he
        exact hnd.1 (List.mem_map.mpr ⟨(p1, v), ht, rfl⟩)
      have htl := ih hnd.2 ht
      have hneg : List.find? (fun p => p.1 == k) ((p1, p2) :: t) =
          List.find? (fun p => p.1 == k) t :=
        List.find?_cons_of_neg _ (by simp [hne])
      rw [dictGet] at htl ⊢
      rw [hneg]
      exact htl

/-- Lookup on a non-key yields `None`. -/
theorem dictGet_eq_none_of_not_mem {d : List (Char × Char)} {k : Char}
    (h : k ∉ dictKeys d) : dictGet d k = Option.none := by
  have hf : d.find? (fun p => p.1 == k) = Option.none := by
    rw [List.find?_eq_none]
    intro p hp hb
    exact h (List.mem_map.mpr ⟨p, hp, by simpa using hb⟩)
  rw [dictGet, hf]
  rfl

/-- Every key of a dict has a looked-up value, stored as a pair. -/
theorem dictGet_total {d : List (Char × Char)} {k : Char} (h : k ∈ dictKeys d) :
    ∃ v, dictGet d k = some v ∧ (k, v) ∈ d := by
  obtain ⟨p, hp, he⟩ := List.mem_map.mp h
  have hs : (d.find? (fun q => q.1 == k)).isSome := by
    rw [List.find?_isSome]
    exact ⟨p, hp, by simp [he]⟩
  obtain ⟨q, hq⟩ := Option.isSome_iff_exists.mp hs
  obtain ⟨q1, q2⟩ := q
  have hqp := List.find?_some hq
  have hqm := List.mem_of_find?_eq_some hq
  have hq1 : q1 = k := by simpa using hqp
  subst hq1
  refine ⟨q2, ?_, hqm⟩
  rw [dictGet, hq]
  rfl

/-- A looked-up value is a key of the dict. -/
theorem mem_dictKeys_of_dictGet {d : List (Char × Char)} {k v : Char}
    (h : dictGet d k = some v) : k ∈ dictKeys d :=
  List.mem_map_of_mem Prod.fst (mem_of_dictGet h)

/-- The sequence `zip(value.values(), value.keys())` is the pair-swapped dict. -/
theorem values_zip_keys (d : List (Char × Char)) :
    (dictValues d).zip (dictKeys d) = d.map (fun p => (p.2, p.1)) := by
  induction d with
  | nil => rfl
  | cons p t ih =>
    rw [dictValues, dictKeys, List.map_cons, List.map_cons, List.zip_cons_cons, List.map_cons]
    rw [dictValues, dictKeys] at ih
    rw [ih]

theorem dictKeys_swap (d : List (Char × Char)) :
    dictKeys (d.map (fun p => (p.2, p.1))) = dictValues d := by
  rw [dictKeys, dictValues, List.map_map]
  rfl

theorem dictValues_swap (d : List (Char × Char)) :
    dictValues (d.map (fun p => (p.2, p.1))) = dictKeys d := by
  rw [dictKeys, dictValues, List.map_map]
  rfl

theorem mem_swap_iff {d : List (Char × Char)} {a b : Char} :
    (a, b) ∈ d.map (fun p => (p.2, p.1)) ↔ (b, a) ∈ d := by
  constructor
  · intro h
    obtain ⟨⟨p1, p2⟩, hp, he⟩ := List.mem_map.mp h
    rw [Prod.mk.injEq] at he
    obtain ⟨h1, h2⟩ := he
    subst h1
    subst h2
    exact hp
  · intro h
    exact List.mem_map.mpr ⟨(b, a), h, rfl⟩

/-- Folding Python dict insertions over pairs whose keys are distinct and new
to the accumulator appends the pairs as given. -/
theorem pyFold_eq_append : ∀ (l acc : List (Char × Char)), (dictKeys l).Nodup →
    (∀ p ∈ l, p.1 ∉ dictKeys acc) →
    l.foldl (fun d p => pyDictInsert d p.1 p.2) acc = acc ++ l := by
  intro l
  induction l with
  | nil => intro acc _ _; simp
  | cons p t ih =>
    intro acc hnd hacc
    obtain ⟨p1, p2⟩ := p
    rw [dictKeys, List.map_cons, List.nodup_cons] at hnd
    have h1 : acc.any (fun q => q.1 == p1) = false := by
      simp only [List.any_eq_false]
      intro q hq hbe
      have he : q.1 = p1 := by simpa using hbe
      exact hacc (p1, p2) (List.mem_cons_self _ _) (List.mem_map.mpr ⟨q, hq, he⟩)
    have hins : pyDictInsert acc p1 p2 = acc ++ [(p1, p2)] := by
      rw [pyDictInsert, h1]
      simp
    have hfresh : ∀ q ∈ t, q.1 ∉ dictKeys (acc ++ [(p1, p2)]) := by
      intro q hq
      rw [dictKeys, List.map_append, List.mem_append]
      rintro (hl | hr)
      · exact hacc q (List.mem_cons_of_mem _ hq) hl
      · have : q.1 = p1 := by simpa using hr
        exact hnd.1 (List.mem_map.mpr ⟨q, hq, this⟩)
    have hstep := ih (acc ++ [(p1, p2)]) hnd.2 hfresh
    simp only [List.foldl_cons]
    rw [hins, hstep, List.append_assoc]
    rfl

/-- Building a Python dict from pairs with pairwise-distinct keys keeps the
pair list as given. -/
theorem pyDictOfPairs_eq_self {l : List (Char × Char)} (h : (dictKeys l).Nodup) :
    pyDictOfPairs l = l := by
  have := pyFold_eq_append l [] h (by simp [dictKeys])
  rw [pyDictOfPairs, this, List.nil_append]

/-! ### Validation lemmas -/

/-- The test `setEqb` is extensional set equality. -/
theorem setEqb_iff {a b : List Char} :
    setEqb a b = true ↔ (∀ x ∈ a, x ∈ b) ∧ (∀ x ∈ b, x ∈ a) := by
  rw [setEqb, Bool.and_eq_true, List.all_eq_true, List.all_eq_true]
  constructor
  · rintro ⟨h1, h2⟩
    exact ⟨fun x hx => by simpa using h1 x hx, fun x hx => by simpa using h2 x hx⟩
  · rintro ⟨h1, h2⟩
    exact ⟨fun x hx => by simpa using h1 x hx, fun x hx => by simpa using h2 x hx⟩

theorem toFinset_eq_of_setEqb {a b : List Char} (h : setEqb a b = true) :
    a.toFinset = b.toFinset := by
  obtain ⟨h1, h2⟩ := setEqb_iff.mp h
  ext x
  simp only [List.mem_toFinset]
  exact ⟨h1 x, h2 x⟩

/-- A list as long as a duplicate-free list with the same elements is itself
duplicate-free. -/
theorem nodup_of_cover {l m : List Char} (hm : m.Nodup) (hlen : l.length = m.length)
    (hfin : l.toFinset = m.toFinset) : l.Nodup := by
  have h1 : l.dedup.length = l.toFinset.card := (List.card_toFinset l).symm
  have h2 : m.toFinset.card = m.length := by
    rw [List.card_toFinset, List.dedup_eq_self.mpr hm]
  have h3 : l.dedup.length = l.length := by rw [h1, hfin, h2, hlen]
  rw [← List.dedup_eq_self]
  exact List.Sublist.eq_of_length (List.dedup_sublist l) h3

theorem goodDict_of_checks {d : List (Char × Char)}
    (hlen : (dictKeys d).length = ascii_lowercase.length)
    (hk : setEqb (dictKeys d) ascii_lowercase = true)
    (hv : setEqb (dictValues d) ascii_lowercase = true) : goodDict d := by
  have hvlen : (dictValues d).length = ascii_lowercase.length := by
    rw [dictValues, List.length_map]
    rw [dictKeys, List.length_map] at hlen
    exact hlen
  have hknd := nodup_of_cover ascii_lowercase_nodup hlen (toFinset_eq_of_setEqb hk)
  have hvnd := nodup_of_cover ascii_lowercase_nodup hvlen (toFinset_eq_of_setEqb hv)
  obtain ⟨hk1, hk2⟩ := setEqb_iff.mp hk
  obtain ⟨hv1, hv2⟩ := setEqb_iff.mp hv
  exact ⟨hknd, hvnd, fun x => ⟨hk1 x, hk2 x⟩, fun x => ⟨hv1 x, hv2 x⟩⟩

/-- Inversion of a successful run of the dict-validation tail of the setter. -/
theorem checkDict_ok {st st' : PlugState} {d : List (Char × Char)}
    (h : checkDict st d = (st', Option.none)) :
    (dictKeys d).length = ascii_lowercase.length ∧
    setEqb (dictKeys d) ascii_lowercase = true ∧
    setEqb (dictValues d) ascii_lowercase = true ∧
    st'.front = d ∧ st'.back = pyDictOfPairs ((dictValues d).zip (dictKeys d)) := by
  rw [checkDict] at h
  split at h
  · simp at h
  · rename_i hlen
    split at h
    · simp at h
    · rename_i hsets
      rw [Prod.mk.injEq] at h
      simp only [Bool.or_eq_true, Bool.not_eq_true', not_or] at hsets
      refine ⟨not_not.mp hlen, ?_, ?_, ?_, ?_⟩
      · simpa using hsets.1
      · simpa using hsets.2
      · rw [← h.1]
      · rw [← h.1]

/-- A successful run of the dict-validation tail leaves a well-formed front
and stores the pair-swapped front as the back. -/
theorem checkDict_ok_state {st st' : PlugState} {d : List (Char × Char)}
    (h : checkDict st d = (st', Option.none)) :
    goodDict st'.front ∧ st'.back = st'.front.map (fun p => (p.2, p.1)) := by
  obtain ⟨hlen, hk, hv, hf, hb⟩ := checkDict_ok h
  have hg := goodDict_of_checks hlen hk hv
  constructor
  · rw [hf]
    exact hg
  · rw [hb, hf, values_zip_keys, pyDictOfPairs_eq_self]
    rw [dictKeys_swap]
    exact hg.2.1

/-- Inversion of a successful `front` setter call: the stored front is a
bijection between the alphabet and itself, and the stored back is its
pair-swapped mirror. -/
theorem front_set_ok {st st' : PlugState} {v : PBValue}
    (h : front_set st v = (st', Option.none)) :
    goodDict st'.front ∧ st'.back = st'.front.map (fun p => (p.2, p.1)) := by
  cases v with
  | none =>
    rw [front_set, if_neg (by decide)] at h
    exact checkDict_ok_state h
  | str s =>
    rw [front_set] at h
    split at h
    · simp at h
    · exact checkDict_ok_state h
  | dict d => exact checkDict_ok_state h
  | other => simp [front_set] at h

/-! ### Round-trip lemmas -/

/-- Forward then backward: looking a symbol up in a well-formed dict and the
result in its pair-swapped mirror returns the symbol. -/
theorem forward_backward {d : List (Char × Char)} (hg : goodDict d) {c : Char}
    (hc : c ∈ ascii_lowercase) :
    ∃ w, dictGet d c = some w ∧ dictGet (d.map (fun p => (p.2, p.1))) w = some c := by
  have hck : c ∈ dictKeys d := (hg.2.2.1 c).mpr hc
  obtain ⟨w, hget, hmem⟩ := dictGet_total hck
  refine ⟨w, hget, ?_⟩
  apply dictGet_of_mem
  · rw [dictKeys_swap]
    exact hg.2.1
  · exact mem_swap_iff.mpr hmem

/-- Backward then forward: looking a symbol up in the pair-swapped mirror of
a well-formed dict and the result in the dict itself returns the symbol. -/
theorem backward_forward {d : List (Char × Char)} (hg : goodDict d) {c : Char}
    (hc : c ∈ ascii_lowercase) :
    ∃ w, dictGet (d.map (fun p => (p.2, p.1))) c = some w ∧ dictGet d w = some c := by
  have hck : c ∈ dictKeys (d.map (fun p => (p.2, p.1))) := by
    rw [dictKeys_swap]
    exact (hg.2.2.2 c).mpr hc
  obtain ⟨w, hget, hmem⟩ := dictGet_total hck
  exact ⟨w, hget, dictGet_of_mem hg.1 (mem_swap_iff.mp hmem)⟩

/-! ### Helper lemmas for the claims -/

/-- When the front mapping is involutive on the alphabet, back lookup agrees
with front lookup on every alphabet symbol. -/
theorem back_eq_front_of_invol {st' : PlugState} (hg : goodDict st'.front)
    (hback : st'.back = st'.front.map (fun p => (p.2, p.1)))
    (hinv : ∀ c ∈ ascii_lowercase,
      (dictGet st'.front c).bind (dictGet st'.front) = some c)
    {c : Char} (hc : c ∈ ascii_lowercase) :
    dictGet st'.back c = dictGet st'.front c := by
  obtain ⟨w, hw1, hwm⟩ := dictGet_total ((hg.2.2.1 c).mpr hc)
  have hb := hinv c hc
  rw [hw1] at hb
  have hb2 : dictGet st'.front w = some c := hb
  have hmem : (w, c) ∈ st'.front := mem_of_dictGet hb2
  have hbk : dictGet (st'.front.map (fun p => (p.2, p.1))) c = some w := by
    apply dictGet_of_mem
    · rw [dictKeys_swap]
      exact hg.2.1
    · exact mem_swap_iff.mpr hmem
  rw [hback, hbk, hw1]

/-- The pieces of the string branch of the setter: keys of
`zip(ascii_lowercase, s)` are the alphabet, values are the string, and the
dict construction keeps the pairs. -/
theorem zip_dict_eq {s : List Char} (hlen : s.length = ascii_lowercase.length) :
    pyDictOfPairs (ascii_lowercase.zip s) = ascii_lowercase.zip s ∧
    dictKeys (ascii_lowercase.zip s) = ascii_lowercase ∧
    dictValues (ascii_lowercase.zip s) = s := by
  have hk : dictKeys (ascii_lowercase.zip s) = ascii_lowercase := by
    rw [dictKeys]
    exact List.map_fst_zip _ _ (le_of_eq hlen.symm)
  have hv : dictValues (ascii_lowercase.zip s) = s := by
    rw [dictValues]
    exact List.map_snd_zip _ _ (le_of_eq hlen)
  refine ⟨pyDictOfPairs_eq_self ?_, hk, hv⟩
  rw [hk]
  exact ascii_lowercase_nodup

/-- A 26-character list with a repeated letter is not set-equal to the
alphabet. -/
theorem setEqb_false_of_dup {s : List Char} (hlen : s.length = ascii_lowercase.length)
    (hdup : ¬ s.Nodup) : setEqb s ascii_lowercase = false := by
  cases hb : setEqb s ascii_lowercase with
  | false => rfl
  | true =>
    exact (hdup (nodup_of_cover ascii_lowercase_nodup hlen (toFinset_eq_of_setEqb hb))).elim

/-- A layer built by a successful setter call maps any non-alphabet symbol to
`None`, with or without `reverse`. -/
theorem plug_call_none_of_not_alpha {p st : PlugState} {v : PBValue}
    (h : front_set st v = (p, Option.none)) {c : Char} (hc : c ∉ ascii_lowercase)
    (r : Option Bool) : plug_call p (some c) r = Option.none := by
  obtain ⟨hg, hback⟩ := front_set_ok h
  have hf : dictGet p.front c = Option.none :=
    dictGet_eq_none_of_not_mem (fun hm => hc ((hg.2.2.1 c).mp hm))
  have hb : dictGet p.back c = Option.none := by
    apply dictGet_eq_none_of_not_mem
    rw [hback, dictKeys_swap]
    intro hm
    exact hc ((hg.2.2.2 c).mp hm)
  cases r with
  | none => exact hf
  | some b =>
    cases b with
    | false => exact hf
    | true => exact hb

/-- Once the value channel holds `None`, a machine whose referenced layers
all come from successful setter calls keeps returning `None`. -/
theorem enigma_fold_none (m : EnigmaM) (l : List (Nat × Bool))
    (hlay : ∀ ir ∈ l, ∃ p st v, m.layers.get? ir.1 = some p ∧
      front_set st v = (p, Option.none)) :
    l.foldlM
      (fun v ir => (m.layers.get? ir.1).map (fun p => plug_call p v (some ir.2)))
      Option.none = some Option.none := by
  induction l with
  | nil => rfl
  | cons ir t ih =>
    obtain ⟨p, st, v, hp, _⟩ := hlay ir (List.mem_cons_self _ _)
    rw [List.foldlM_cons, hp]
    have hstep : (some p).map (fun q => plug_call q Option.none (some ir.2)) =
        some Option.none := rfl
    rw [hstep]
    exact ih (fun jr hj => hlay jr (List.mem_cons_of_mem _ hj))

/-- A machine with a single plugboard layer used once is that layer's call. -/
theorem enigma_call_single (p : PlugState) (r : Bool) (v : Option Char) :
    enigma_call ⟨[p], [(0, r)]⟩ v = some (plug_call p v (some r)) := rfl

/-! ### Claim theorems -/

/-- C4: for every successfully constructed plugboard and every symbol of the
26-letter alphabet, applying the forward mapping and then the reverse mapping
returns the symbol: `P(P(s, reverse=False), reverse=True) == s`. -/
theorem plugboard_forward_backward_roundtrip (st st' : PlugState) (v : PBValue)
    (h : front_set st v = (st', Option.none)) :
    ∀ c ∈ ascii_lowercase,
      plug_call st' (plug_call st' (some c) (some false)) (some true) = some c := by
  intro c hc
  obtain ⟨hg, hback⟩ := front_set_ok h
  obtain ⟨w, hw1, hw2⟩ := forward_backward hg hc
  have e1 : plug_call st' (some c) (some false) = dictGet st'.front c := rfl
  rw [e1, hw1]
  have e2 : plug_call st' (some w) (some true) = dictGet st'.back w := rfl
  rw [e2, hback]
  exact hw2

/-- Witness for C4: the default plugboard round-trips the letter `a`. -/
theorem plugboard_forward_backward_roundtrip_witness :
    plug_call std_plugboard (plug_call std_plugboard (some 'a') (some false))
      (some true) = some 'a' :=
  plugboard_forward_backward_roundtrip ⟨[], []⟩ std_plugboard PBValue.none
    (by decide) 'a' (by decide)

/-- C6: for every plugboard whose front mapping is an involution on the
alphabet, the call gives the same result regardless of the `reverse` flag. -/
theorem plugboard_reverse_flag_irrelevant (st st' : PlugState) (v : PBValue)
    (h : front_set st v = (st', Option.none))
    (hinv : ∀ c ∈ ascii_lowercase,
      (dictGet st'.front c).bind (dictGet st'.front) = some c) :
    ∀ c ∈ ascii_lowercase,
      plug_call st' (some c) (some true) = plug_call st' (some c) (some false) := by
  intro c hc
  obtain ⟨hg, hback⟩ := front_set_ok h
  have e1 : plug_call st' (some c) (some true) = dictGet st'.back c := rfl
  have e2 : plug_call st' (some c) (some false) = dictGet st'.front c := rfl
  rw [e1, e2]
  exact back_eq_front_of_invol hg hback hinv hc

/-- Witness for C6: on the default plugboard, whose mapping is involutive,
both flag values agree at the letter `b`. -/
theorem plugboard_reverse_flag_irrelevant_witness :
    plug_call std_plugboard (some 'b') (some true) =
      plug_call std_plugboard (some 'b') (some false) :=
  plugboard_reverse_flag_irrelevant ⟨[], []⟩ std_plugboard PBValue.none
    (by decide) (by decide) 'b' (by decide)

/-- C8: a rejected assignment to `front` (whatever the raised error) leaves
the plugboard's state — both dictionaries — exactly as it was. -/
theorem front_set_atomic (st : PlugState) (v : PBValue) (e : PyErr)
    (h : (front_set st v).2 = some e) : (front_set st v).1 = st := by
  have hck : ∀ d : List (Char × Char),
      (checkDict st d).2 = some e → (checkDict st d).1 = st := by
    intro d hd
    by_cases h1 : (dictKeys d).length ≠ ascii_lowercase.length
    · rw [checkDict, if_pos h1]
    · by_cases h2 : (!(setEqb (dictKeys d) ascii_lowercase) ||
          !(setEqb (dictValues d) ascii_lowercase)) = true
      · rw [checkDict, if_neg h1, if_pos h2]
      · rw [checkDict, if_neg h1, if_neg h2] at hd
        simp at hd
  cases v with
  | none =>
    rw [front_set, if_neg (by decide)] at h ⊢
    exact hck _ h
  | str s =>
    by_cases hs : s.length ≠ ascii_lowercase.length
    · rw [front_set, if_pos hs]
    · rw [front_set, if_neg hs] at h ⊢
      exact hck _ h
  | dict d => exact hck d h
  | other => rfl

/-- Witness for C8: assigning the 3-character string `abc` to the default
plugboard raises and leaves the plugboard unchanged. -/
theorem front_set_atomic_witness :
    (front_set std_plugboard (PBValue.str ['a', 'b', 'c'])).1 = std_plugboard :=
  front_set_atomic std_plugboard (PBValue.str ['a', 'b', 'c'])
    (PyErr.valueError "Expected 26 characters") (by decide)

/-- C9: after every successful `front` assignment the stored front is a
bijection keyed by the whole alphabet, and the stored back is exactly its
inverse: `back[front[s]] == s` and `front[back[s]] == s` for every alphabet
symbol `s`. -/
theorem front_back_inverse_invariant (st st' : PlugState) (v : PBValue)
    (h : front_set st v = (st', Option.none)) :
    (dictKeys st'.front).Nodup ∧
    (∀ x, x ∈ dictKeys st'.front ↔ x ∈ ascii_lowercase) ∧
    (∀ c ∈ ascii_lowercase,
      (dictGet st'.front c).bind (dictGet st'.back) = some c ∧
      (dictGet st'.back c).bind (dictGet st'.front) = some c) := by
  obtain ⟨hg, hback⟩ := front_set_ok h
  refine ⟨hg.1, hg.2.2.1, fun c hc => ⟨?_, ?_⟩⟩
  · obtain ⟨w, hw1, hw2⟩ := forward_backward hg hc
    rw [hw1]
    show dictGet st'.back w = some c
    rw [hback]
    exact hw2
  · obtain ⟨w, hw1, hw2⟩ := backward_forward hg hc
    rw [hback, hw1]
    exact hw2

/-- Witness for C9: on the default plugboard, `back[front[a]] == a`. -/
theorem front_back_inverse_invariant_witness :
    (dictGet std_plugboard.front 'a').bind (dictGet std_plugboard.back) = some 'a' :=
  ((front_back_inverse_invariant ⟨[], []⟩ std_plugboard PBValue.none
    (by decide)).2.2 'a' (by decide)).1

/-- C3: a string not exactly 26 characters long, a 26-character string with a
repeated letter, or a dict whose keys or values do not exactly cover the
lowercase alphabet, is rejected at construction with the construction-time
error (`ValueError` in the source), and the plugboard state is untouched. -/
theorem invalid_config_rejected (st : PlugState) (v : PBValue)
    (h : (∃ s, v = PBValue.str s ∧ (s.length ≠ 26 ∨ ¬ s.Nodup)) ∨
         (∃ d, v = PBValue.dict d ∧ (dictKeys d).Nodup ∧
           (¬ List.Perm (dictKeys d) ascii_lowercase ∨
            ¬ List.Perm (dictValues d) ascii_lowercase))) :
    (∃ msg, (front_set st v).2 = some (PyErr.valueError msg)) ∧
    (front_set st v).1 = st := by
  rcases h with ⟨s, rfl, hs⟩ | ⟨d, rfl, hnd, hd⟩
  · by_cases hlen : s.length = 26
    · have hdup : ¬ s.Nodup := by
        rcases hs with h1 | h1
        · exact absurd hlen h1
        · exact h1
      have hleq : s.length = ascii_lowercase.length := by
        rw [ascii_lowercase_length]
        exact hlen
      obtain ⟨hpy, hk, hv⟩ := zip_dict_eq hleq
      rw [front_set, if_neg (not_not_intro hleq), hpy]
      have hvfalse : setEqb (dictValues (ascii_lowercase.zip s)) ascii_lowercase = false := by
        rw [hv]
        exact setEqb_false_of_dup hleq hdup
      have hcond : (!(setEqb (dictKeys (ascii_lowercase.zip s)) ascii_lowercase) ||
          !(setEqb (dictValues (ascii_lowercase.zip s)) ascii_lowercase)) = true := by
        rw [hvfalse]
        simp
      have hklen : ¬ (dictKeys (ascii_lowercase.zip s)).length ≠ ascii_lowercase.length := by
        rw [hk]
        exact fun hx => hx rfl
      rw [checkDict, if_neg hklen, if_pos hcond]
      exact ⟨⟨"Invalid characters found, expected to be a lowercase ascii", rfl⟩, rfl⟩
    · have hne : s.length ≠ ascii_lowercase.length := by
        rw [ascii_lowercase_length]
        exact hlen
      rw [front_set, if_pos hne]
      exact ⟨⟨"Expected 26 characters", rfl⟩, rfl⟩
  · show (∃ msg, (checkDict st d).2 = some (PyErr.valueError msg)) ∧ (checkDict st d).1 = st
    by_cases hlen : (dictKeys d).length = ascii_lowercase.length
    · have hboth : ¬ (setEqb (dictKeys d) ascii_lowercase = true ∧
          setEqb (dictValues d) ascii_lowercase = true) := by
        rintro ⟨hkeq, hveq⟩
        have hkperm : List.Perm (dictKeys d) ascii_lowercase :=
          List.perm_of_nodup_nodup_toFinset_eq hnd ascii_lowercase_nodup
            (toFinset_eq_of_setEqb hkeq)
        have hvlen : (dictValues d).length = ascii_lowercase.length := by
          rw [dictValues, List.length_map]
          rw [dictKeys, List.length_map] at hlen
          exact hlen
        have hvnd := nodup_of_cover ascii_lowercase_nodup hvlen (toFinset_eq_of_setEqb hveq)
        have hvperm : List.Perm (dictValues d) ascii_lowercase :=
          List.perm_of_nodup_nodup_toFinset_eq hvnd ascii_lowercase_nodup
            (toFinset_eq_of_setEqb hveq)
        rcases hd with hbad | hbad
        · exact hbad hkperm
        · exact hbad hvperm
      have hcond : (!(setEqb (dictKeys d) ascii_lowercase) ||
          !(setEqb (dictValues d) ascii_lowercase)) = true := by
        by_contra hc
        simp only [Bool.or_eq_true, Bool.not_eq_true', not_or] at hc
        exact hboth ⟨by simpa using hc.1, by simpa using hc.2⟩
      rw [checkDict, if_neg (not_not_intro hlen), if_pos hcond]
      exact ⟨⟨"Invalid characters found, expected to be a lowercase ascii", rfl⟩, rfl⟩
    · rw [checkDict, if_pos hlen]
      exact ⟨⟨"Expected 26 keys", rfl⟩, rfl⟩

/-- Witness for C3: a 26-character string with a repeated letter (two `a`,
no `b`) is rejected and the state kept. -/
theorem invalid_config_rejected_witness :
    (∃ msg, (front_set std_plugboard
      (PBValue.str "aacdefghijklmnopqrstuvwxyz".toList)).2 =
        some (PyErr.valueError msg)) ∧
    (front_set std_plugboard (PBValue.str "aacdefghijklmnopqrstuvwxyz".toList)).1 =
      std_plugboard :=
  invalid_config_rejected std_plugboard
    (PBValue.str "aacdefghijklmnopqrstuvwxyz".toList)
    (Or.inl ⟨"aacdefghijklmnopqrstuvwxyz".toList, rfl, Or.inr (by decide)⟩)

/-- Counterexample for C2: the bijective but non-involutive mapping
`a → b → c → a` is accepted by construction (no error), and the resulting
plugboard is not self-inverse: applying the front mapping twice to `a` gives
`c`, not `a`. -/
theorem noninvolutive_accepted_cex :
    (front_set ⟨[], []⟩ (PBValue.dict cyc3)).2 = Option.none ∧
    (dictGet (front_set ⟨[], []⟩ (PBValue.dict cyc3)).1.front 'a').bind
      (dictGet (front_set ⟨[], []⟩ (PBValue.dict cyc3)).1.front) ≠ some 'a' := by
  decide

/-- C2 amended: construction checks only that the mapping is a bijection over
the alphabet; every dict whose keys and values are permutations of the
alphabet is accepted, involutive or not. -/
theorem bijection_accepted (st : PlugState) (d : List (Char × Char))
    (hk : List.Perm (dictKeys d) ascii_lowercase)
    (hv : List.Perm (dictValues d) ascii_lowercase) :
    (front_set st (PBValue.dict d)).2 = Option.none := by
  have hlen : (dictKeys d).length = ascii_lowercase.length := hk.length_eq
  have hkeq : setEqb (dictKeys d) ascii_lowercase = true :=
    setEqb_iff.mpr ⟨fun x hx => hk.mem_iff.mp hx, fun x hx => hk.mem_iff.mpr hx⟩
  have hveq : setEqb (dictValues d) ascii_lowercase = true :=
    setEqb_iff.mpr ⟨fun x hx => hv.mem_iff.mp hx, fun x hx => hv.mem_iff.mpr hx⟩
  show (checkDict st d).2 = Option.none
  rw [checkDict, if_neg (not_not_intro hlen), if_neg (by rw [hkeq, hveq]; simp)]

/-- Witness for C2 amended: the three-cycle mapping is accepted. -/
theorem bijection_accepted_witness :
    (front_set ⟨[], []⟩ (PBValue.dict cyc3)).2 = Option.none :=
  bijection_accepted ⟨[], []⟩ cyc3 (by decide) (by decide)

/-- Counterexample for C7: the partial pairing `{a: b, b: a}` does not
succeed with unlisted letters defaulting to identity — it is rejected
outright with a `ValueError`. -/
theorem incomplete_pairing_rejected_cex :
    (front_set ⟨[], []⟩ (PBValue.dict [('a', 'b'), ('b', 'a')])).2 =
      some (PyErr.valueError "Expected 26 keys") := by
  decide

/-- C7 amended: a pairing that does not list all 26 letters is rejected at
construction; there is no identity-defaulting for unlisted letters. -/
theorem incomplete_pairing_rejected (st : PlugState) (d : List (Char × Char))
    (_hnd : (dictKeys d).Nodup) (h : d.length ≠ 26) :
    (front_set st (PBValue.dict d)).2 = some (PyErr.valueError "Expected 26 keys") := by
  show (checkDict st d).2 = _
  rw [checkDict, if_pos]
  rw [dictKeys, List.length_map, ascii_lowercase_length]
  exact h

/-- Witness for C7 amended: the two-entry pairing `{a: b, b: a}` is
rejected. -/
theorem incomplete_pairing_rejected_witness :
    (front_set ⟨[], []⟩ (PBValue.dict [('a', 'b'), ('b', 'a')])).2 =
      some (PyErr.valueError "Expected 26 keys") :=
  incomplete_pairing_rejected ⟨[], []⟩ [('a', 'b'), ('b', 'a')] (by decide) (by decide)

/-- Counterexample for C1: two machines built from identical configurations
(the accepted three-cycle plugboard, order `((0, False),)`) do not invert
each other: feeding the first machine's output for `a` into the second does
not recover `a`. -/
theorem reciprocity_fails_cex :
    (front_set ⟨[], []⟩ (PBValue.dict cyc3)).2 = Option.none ∧
    (enigma_call cyc3_machine (some 'a')).bind (enigma_call cyc3_machine) ≠
      some (some 'a') := by
  decide

/-- C1 amended: reciprocity holds for two identically configured single-layer
machines whenever the shared plugboard's front mapping is involutive on the
alphabet (the default configuration being such a case): the second machine
maps the first machine's output for `s` back to `s`. -/
theorem reciprocity_for_involutive_machines (st st' : PlugState) (v : PBValue)
    (r1 r2 : Bool) (h : front_set st v = (st', Option.none))
    (hinv : ∀ c ∈ ascii_lowercase,
      (dictGet st'.front c).bind (dictGet st'.front) = some c) :
    ∀ c ∈ ascii_lowercase,
      (enigma_call ⟨[st'], [(0, r1)]⟩ (some c)).bind
        (enigma_call ⟨[st'], [(0, r2)]⟩) = some (some c) := by
  intro c hc
  obtain ⟨hg, hback⟩ := front_set_ok h
  obtain ⟨w, hw1, hwm⟩ := dictGet_total ((hg.2.2.1 c).mpr hc)
  have hwa : w ∈ ascii_lowercase := (hg.2.2.2 w).mp (List.mem_map.mpr ⟨(c, w), hwm, rfl⟩)
  have hfw : dictGet st'.front w = some c := by
    have hb := hinv c hc
    rw [hw1] at hb
    exact hb
  have hpc : ∀ r : Bool, plug_call st' (some c) (some r) = some w := by
    intro r
    cases r with
    | false => exact hw1
    | true =>
      show dictGet st'.back c = some w
      rw [back_eq_front_of_invol hg hback hinv hc]
      exact hw1
  have hpw : ∀ r : Bool, plug_call st' (some w) (some r) = some c := by
    intro r
    cases r with
    | false => exact hfw
    | true =>
      show dictGet st'.back w = some c
      rw [back_eq_front_of_invol hg hback hinv hwa]
      exact hfw
  rw [enigma_call_single, hpc r1]
  show enigma_call ⟨[st'], [(0, r2)]⟩ (some w) = some (some c)
  rw [enigma_call_single, hpw r2]

/-- Witness for C1 amended: two default-configured machines recover `a`. -/
theorem reciprocity_for_involutive_machines_witness :
    (enigma_call ⟨[std_plugboard], [(0, true)]⟩ (some 'a')).bind
      (enigma_call ⟨[std_plugboard], [(0, true)]⟩) = some (some 'a') :=
  reciprocity_for_involutive_machines ⟨[], []⟩ std_plugboard PBValue.none true true
    (by decide) (by decide) 'a' (by decide)

/-- Counterexample for C5: feeding the digit `1` to the default machine does
not raise anything — the call completes normally and returns Python `None`
(the `dict.get` default); the source has no `InputError` at all. -/
theorem input_error_not_raised_cex :
    enigma_call (enigma_init Option.none Option.none) (some '1') =
      some Option.none := by
  decide

/-- C5 amended: for every machine whose order is non-empty and whose
referenced layers all come from successful plugboard construction, a
non-alphabet input is not rejected with an error: the call returns `None`. -/
theorem nonalphabet_input_returns_none (m : EnigmaM) (hord : m.order ≠ [])
    (hlay : ∀ ir ∈ m.order, ∃ p st v, m.layers.get? ir.1 = some p ∧
      front_set st v = (p, Option.none))
    (c : Char) (hc : c ∉ ascii_lowercase) :
    enigma_call m (some c) = some Option.none := by
  obtain ⟨ir, t, hot⟩ := List.exists_cons_of_ne_nil hord
  obtain ⟨p, st, v, hp, hfs⟩ := hlay ir (by rw [hot]; exact List.mem_cons_self _ _)
  rw [enigma_call, hot, List.foldlM_cons, hp]
  have hstep : (some p).map (fun q => plug_call q (some c) (some ir.2)) =
      some Option.none := by
    show some (plug_call p (some c) (some ir.2)) = some Option.none
    rw [plug_call_none_of_not_alpha hfs hc (some ir.2)]
  rw [hstep]
  show t.foldlM
    (fun w jr => (m.layers.get? jr.1).map (fun q => plug_call q w (some jr.2)))
    Option.none = some Option.none
  exact enigma_fold_none m t
    (fun jr hj => hlay jr (by rw [hot]; exact List.mem_cons_of_mem _ hj))

/-- Witness for C5 amended: the default machine returns `None` on `1`. -/
theorem nonalphabet_input_returns_none_witness :
    enigma_call (enigma_init Option.none Option.none) (some '1') =
      some Option.none :=
  nonalphabet_input_returns_none (enigma_init Option.none Option.none)
    (by decide)
    (by
      intro ir hir
      have hir0 : ir = (0, true) := by
        have h0 : (enigma_init Option.none Option.none).order = [(0, true)] := rfl
        rw [h0] at hir
        exact List.mem_singleton.mp hir
      subst hir0
      exact ⟨std_plugboard, ⟨[], []⟩, PBValue.none, rfl, by decide⟩)
    '1' (by decide)

/-- C10: the built-in standard mapping `zphnmswciytqedoblrfkuvgxja` is an
involution, and the default-constructed machine is self-inverse: feeding a
letter's encryption back in recovers the letter. -/
theorem default_machine_self_inverse :
    ∀ c ∈ ascii_lowercase,
      (dictGet std_plugboard.front c).bind (dictGet std_plugboard.front) = some c ∧
      (enigma_call (enigma_init Option.none Option.none) (some c)).bind
        (enigma_call (enigma_init Option.none Option.none)) = some (some c) := by
  decide

/-- Witness for C10: the default machine applied twice to `a` returns `a`. -/
theorem default_machine_self_inverse_witness :
    (enigma_call (enigma_init Option.none Option.none) (some 'a')).bind
      (enigma_call (enigma_init Option.none Option.none)) = some (some 'a') :=
  (default_machine_self_inverse 'a' (by decide)).2
